import Mathlib

set_option maxRecDepth 4000

/-!
Shallow embedding of `src/keyscan.rs` (haxo-rs): a key-matrix scanner over
GPIO lines.  Rows are driven outputs (active low), columns are pull-up
inputs.  `scan` drives each row low in turn, samples every column, and
accumulates a `u32` bitmask of pressed keys; `init_io` configures the lines.

Machine integers are modelled as `Nat` with explicit `% 2 ^ 32` masks where
u32 wrap-around or complement matters.  The GPIO hardware is modelled by a
`Driver`: a pressed-state matrix (keyed by physical pin numbers), plus flags
saying which `gpio.get(pin)` calls succeed, mirroring the fallible calls in
the source.  `scan` and `init_io` additionally return the list of driver-
visible pin operations (the trace) and the final set of rows left driven
low, so that temporal and error-path claims can be stated.
-/

namespace Keyscan

/-- BCM pin numbers of the row lines (`const ROWS` in keyscan.rs). -/
def ROWS : List Nat := [13, 12, 16, 17, 20, 22, 23, 24]

/-- BCM pin numbers of the column lines (`const COLS` in keyscan.rs). -/
def COLS : List Nat := [25, 26, 27]

/-- `const ROW_PULL_DOWN_TIME_US: u64 = 10`, the settle delay in microseconds. -/
def ROW_PULL_DOWN_TIME_US : Nat := 10

/-- `fn get_bit_at(input: u32, n: u8) -> bool`:
`if n < 32 { input & (1 << n) != 0 } else { false }`. -/
def get_bit_at (input : Nat) (n : Nat) : Bool :=
  if n < 32 then input &&& (1 <<< n) != 0 else false

/-- `fn set_bit_at(output: &mut u32, n: u8)`:
`if n < 32 { *output |= 1 << n; }` (returned functionally). -/
def set_bit_at (output : Nat) (n : Nat) : Nat :=
  if n < 32 then output ||| (1 <<< n) else output

/-- `fn clear_bit_at(output: &mut u32, n: u8)`:
`if n < 32 { *output &= !(1 << n); }`; `!` is u32 complement, i.e. XOR with
`2 ^ 32 - 1`. -/
def clear_bit_at (output : Nat) (n : Nat) : Nat :=
  if n < 32 then output &&& ((2 ^ 32 - 1) ^^^ (1 <<< n)) else output

/-- A GPIO line level (`rppal::gpio::Level`). -/
inductive Level where
  | Low : Level
  | High : Level
deriving DecidableEq, Repr

deriving instance DecidableEq for Except

/-- The simulated hardware the scanner talks to:
`pressed rowPin colPin` says whether the key at the intersection of those two
physical pins is pressed (so, with the row driven low, the column reads low);
`getOk pin` says whether `gpio.get(pin)` succeeds (false models an already
claimed / unavailable line); `gpioNewOk` whether `Gpio::new()` succeeds. -/
structure Driver where
  pressed : Nat → Nat → Bool
  getOk : Nat → Bool
  gpioNewOk : Bool

/-- Driver-visible pin operations performed by `scan`, in order. A
`readCol` event also records the rows driven low at the sampling instant and
the `key_idx` value passed to the bit primitives for that sample. -/
inductive Event where
  | setLow (pin : Nat) : Event
  | sleepSettle : Event
  | readCol (pin : Nat) (lowRows : List Nat) (keyIdx : Nat) (lvl : Level) : Event
  | setHigh (pin : Nat) : Event
deriving DecidableEq, Repr

/-- What a pull-up column input reads: low iff some currently-low row has a
pressed key on this column (active-low matrix), else pulled high. -/
def readLevel (d : Driver) (lowRows : List Nat) (col : Nat) : Level :=
  if lowRows.any (fun r => d.pressed r col) then Level.Low else Level.High

/-- The write to `keymap` performed by the body of the column loop of `scan`:
`if get_bit_at(keymap, key_idx) != is_pressed { if is_pressed { set_bit_at }
else { clear_bit_at } }`. -/
def write_bit (keymap : Nat) (n : Nat) (is_pressed : Bool) : Nat :=
  if get_bit_at keymap n != is_pressed then
    if is_pressed then set_bit_at keymap n else clear_bit_at keymap n
  else keymap

/-- The inner `for col in &COLS` loop of `scan`: acquire the column pin
(`gpio.get(*col)?`, may fail), read it, update `keymap`, bump `key_idx`.
Returns `(keymap, key_idx)` on success and the trace of read events. -/
def scanCols (d : Driver) (lowRows : List Nat) :
    List Nat → Nat → Nat → Except Unit (Nat × Nat) × List Event
  | [], keyIdx, keymap => (Except.ok (keymap, keyIdx), [])
  | col :: rest, keyIdx, keymap =>
    if d.getOk col then
      let lvl := readLevel d lowRows col
      let is_pressed : Bool := lvl == Level.Low
      let keymap1 := write_bit keymap keyIdx is_pressed
      let next := scanCols d lowRows rest (keyIdx + 1) keymap1
      (next.1, Event.readCol col lowRows keyIdx lvl :: next.2)
    else (Except.error (), [])

/-- The outer `for row in &ROWS` loop of `scan`: acquire the row pin (may
fail), drive it low, sleep the settle delay, run the column loop, then drive
the row high again before the next row.  `lowRows` is the set of row pins
currently driven low; on an error the loop stops at once, leaving `lowRows`
as it stands (the source returns via `?` without restoring the row). -/
def scanRows (d : Driver) :
    List Nat → Nat → Nat → List Nat → Except Unit Nat × List Nat × List Event
  | [], _keyIdx, keymap, lowRows => (Except.ok keymap, lowRows, [])
  | row :: rest, keyIdx, keymap, lowRows =>
    if d.getOk row then
      let lowRows1 := lowRows ++ [row]
      match scanCols d lowRows1 COLS keyIdx keymap with
      | (Except.ok (keymap1, keyIdx1), trC) =>
        let lowRows2 := lowRows1.erase row
        let next := scanRows d rest keyIdx1 keymap1 lowRows2
        (next.1, next.2.1,
          Event.setLow row :: Event.sleepSettle :: (trC ++ Event.setHigh row :: next.2.2))
      | (Except.error e, trC) =>
        (Except.error e, lowRows1, Event.setLow row :: Event.sleepSettle :: trC)
    else (Except.error (), lowRows, [])

/-- `pub fn scan() -> Result<u32, Box<dyn Error>>`: `Gpio::new()?` (may
fail), then the row loop with `key_idx = 0` and `keymap = 0`.  Takes and
returns the set of rows currently driven low, and returns the trace. -/
def scan (d : Driver) (lowRows : List Nat) : Except Unit Nat × List Nat × List Event :=
  if d.gpioNewOk then scanRows d ROWS 0 0 lowRows
  else (Except.error (), lowRows, [])

/-- Driver-visible configuration operations performed by `init_io`. -/
inductive InitEvent where
  | inputPullup (pin : Nat) : InitEvent
  | output (pin : Nat) : InitEvent
  | setHigh (pin : Nat) : InitEvent
  | noReset (pin : Nat) : InitEvent
deriving DecidableEq, Repr

/-- The `for col in &COLS` loop of `init_io`: `gpio.get(*col)?` (may fail),
`into_input_pullup()`, `set_reset_on_drop(false)`. -/
def initCols (d : Driver) : List Nat → Except Unit Unit × List InitEvent
  | [] => (Except.ok (), [])
  | col :: rest =>
    if d.getOk col then
      let next := initCols d rest
      (next.1, InitEvent.inputPullup col :: InitEvent.noReset col :: next.2)
    else (Except.error (), [])

/-- The `for row in &ROWS` loop of `init_io`: `gpio.get(*row)?` (may fail),
`into_output()`, `set_high()`, `set_reset_on_drop(false)`. -/
def initRows (d : Driver) : List Nat → Except Unit Unit × List InitEvent
  | [] => (Except.ok (), [])
  | row :: rest =>
    if d.getOk row then
      let next := initRows d rest
      (next.1,
        InitEvent.output row :: InitEvent.setHigh row :: InitEvent.noReset row :: next.2)
    else (Except.error (), [])

/-- `pub fn init_io() -> Result<(), Box<dyn Error>>`: `Gpio::new()?`, the
column loop, then the row loop; the first failure propagates via `?`. -/
def init_io (d : Driver) : Except Unit Unit × List InitEvent :=
  if d.gpioNewOk then
    match initCols d COLS with
    | (Except.ok _, trC) =>
      let next := initRows d ROWS
      (next.1, trC ++ next.2)
    | (Except.error e, trC) => (Except.error e, trC)
  else (Except.error (), [])

/-- The row-major key index, `ir * COLS.len() + ic` as written in
`debug_print` and realized by the incrementing `key_idx` counter of `scan`. -/
def key_idx_of (r c : Nat) : Nat := r * COLS.length + c

/-- u32 shift-left as Rust executes it: shifting by 32 or more is an
overflow (a panic in debug builds), modelled as `none`. -/
def shl_u32 (x n : Nat) : Option Nat :=
  if n < 32 then some ((x <<< n) % 2 ^ 32) else none

/-- `get_bit_at` with the shift checked as Rust checks it: `none` would mean
a shift-overflow panic. -/
def get_bit_at_checked (input : Nat) (n : Nat) : Option Bool :=
  if n < 32 then (shl_u32 1 n).map (fun s => input &&& s != 0)
  else some false

/-- `set_bit_at` with the shift checked. -/
def set_bit_at_checked (output : Nat) (n : Nat) : Option Nat :=
  if n < 32 then (shl_u32 1 n).map (fun s => output ||| s)
  else some output

/-- `clear_bit_at` with the shift checked. -/
def clear_bit_at_checked (output : Nat) (n : Nat) : Option Nat :=
  if n < 32 then (shl_u32 1 n).map (fun s => output &&& ((2 ^ 32 - 1) ^^^ s))
  else some output

/-- A driver with no key pressed and all GPIO calls succeeding. -/
def allReleased : Driver := ⟨fun _ _ => false, fun _ => true, true⟩

/-- A driver with exactly the key joining `rowPin` and `colPin` pressed and
all GPIO calls succeeding. -/
def singleKey (rowPin colPin : Nat) : Driver :=
  ⟨fun r c => r == rowPin && c == colPin, fun _ => true, true⟩

/-- A driver whose column line 26 cannot be acquired; everything else works. -/
def badLine26 : Driver := ⟨fun _ _ => false, fun p => p != 26, true⟩

/-- A driver whose column line 25 cannot be acquired; everything else works. -/
def badLine25 : Driver := ⟨fun _ _ => false, fun p => p != 25, true⟩


lemma get_bit_at_eq (input n : Nat) :
    get_bit_at input n = if n < 32 then input.testBit n else false := by
  unfold get_bit_at
  by_cases h : n < 32
  · rw [if_pos h, if_pos h, Nat.one_shiftLeft, Nat.and_two_pow]
    cases hb : input.testBit n <;> simp [hb, Nat.two_pow_pos, Nat.pos_iff_ne_zero]
  · rw [if_neg h, if_neg h]

lemma testBit_set_bit_at {m n : Nat} (hn : n < 32) (k : Nat) :
    (set_bit_at m n).testBit k = (m.testBit k || decide (n = k)) := by
  unfold set_bit_at
  rw [if_pos hn, Nat.one_shiftLeft, Nat.testBit_or, Nat.testBit_two_pow]

lemma testBit_clear_bit_at {m n : Nat} (hn : n < 32) (hm : m < 2 ^ 32) (k : Nat) :
    (clear_bit_at m n).testBit k = (m.testBit k && !decide (n = k)) := by
  unfold clear_bit_at
  rw [if_pos hn, Nat.one_shiftLeft, Nat.testBit_and, Nat.testBit_xor,
    Nat.testBit_two_pow_sub_one, Nat.testBit_two_pow]
  by_cases hk : k < 32
  · simp [hk]
  · have hmk : m.testBit k = false := by
      refine Nat.testBit_lt_two_pow (lt_of_lt_of_le hm ?_)
      exact Nat.pow_le_pow_right (by norm_num) (by omega)
    have hnk : ¬ n = k := by omega
    simp [hmk, hk, hnk]

lemma set_bit_at_lt {m : Nat} (n : Nat) (hm : m < 2 ^ 32) : set_bit_at m n < 2 ^ 32 := by
  unfold set_bit_at
  by_cases h : n < 32
  · rw [if_pos h, Nat.one_shiftLeft]
    exact Nat.or_lt_two_pow hm (Nat.pow_lt_pow_right (by norm_num) h)
  · rwa [if_neg h]

lemma clear_bit_at_lt {m : Nat} (n : Nat) (hm : m < 2 ^ 32) : clear_bit_at m n < 2 ^ 32 := by
  unfold clear_bit_at
  by_cases h : n < 32
  · rw [if_pos h]
    exact lt_of_le_of_lt Nat.and_le_left hm
  · rwa [if_neg h]

lemma write_bit_lt {m : Nat} (n : Nat) (b : Bool) (hm : m < 2 ^ 32) :
    write_bit m n b < 2 ^ 32 := by
  unfold write_bit
  by_cases h : get_bit_at m n != b
  · rw [if_pos h]
    cases b
    · exact clear_bit_at_lt n hm
    · exact set_bit_at_lt n hm
  · rwa [if_neg h]

lemma testBit_write_bit {m n : Nat} (b : Bool) (hn : n < 32) (hm : m < 2 ^ 32) (k : Nat) :
    (write_bit m n b).testBit k = if n = k then b else m.testBit k := by
  unfold write_bit
  rw [get_bit_at_eq, if_pos hn]
  by_cases hb : m.testBit n = b
  · rw [hb]
    simp only [bne_self_eq_false, Bool.false_eq_true, if_false]
    by_cases hk : n = k
    · subst hk
      rw [if_pos rfl, hb]
    · rw [if_neg hk]
  · have : (m.testBit n != b) = true := by
      cases hx : m.testBit n <;> cases b <;> simp_all
    rw [this, if_pos rfl]
    cases b
    · have hcl : (if false = true then set_bit_at m n else clear_bit_at m n) =
          clear_bit_at m n := by simp
      rw [hcl, testBit_clear_bit_at hn hm]
      by_cases hk : n = k
      · simp [hk]
      · simp [hk]
    · have hst : (if true = true then set_bit_at m n else clear_bit_at m n) =
          set_bit_at m n := by simp
      rw [hst, testBit_set_bit_at hn]
      by_cases hk : n = k
      · simp [hk]
      · simp [hk]


lemma scanCols_ok (d : Driver) (lowRows : List Nat) :
    ∀ (cols : List Nat) (keyIdx keymap : Nat),
    (∀ c ∈ cols, d.getOk c = true) →
    keyIdx + cols.length ≤ 32 →
    keymap < 2 ^ 32 →
    ∃ keymap1 tr,
      scanCols d lowRows cols keyIdx keymap =
        (Except.ok (keymap1, keyIdx + cols.length), tr) ∧
      keymap1 < 2 ^ 32 ∧
      (∀ j (hj : j < cols.length),
        keymap1.testBit (keyIdx + j) =
          (readLevel d lowRows (cols.get ⟨j, hj⟩) == Level.Low)) ∧
      (∀ k, k < keyIdx ∨ keyIdx + cols.length ≤ k →
        keymap1.testBit k = keymap.testBit k)
  | [], keyIdx, keymap, _hok, _hi, hm =>
    ⟨keymap, [], by simp [scanCols], hm, fun j hj => absurd hj (by simp), fun k _ => rfl⟩
  | col :: rest, keyIdx, keymap, hok, hi, hm => by
    have hcol : d.getOk col = true := hok col (List.mem_cons_self col rest)
    have hn : keyIdx < 32 := by
      have := hi
      simp [List.length_cons] at this
      omega
    set b : Bool := (readLevel d lowRows col == Level.Low) with hb
    have hm1 : write_bit keymap keyIdx b < 2 ^ 32 := write_bit_lt keyIdx b hm
    obtain ⟨keymap1, tr, heq, hlt, hbits, hfix⟩ :=
      scanCols_ok d lowRows rest (keyIdx + 1) (write_bit keymap keyIdx b)
        (fun c hc => hok c (List.mem_cons_of_mem col hc))
        (by simp [List.length_cons] at hi; omega) hm1
    refine ⟨keymap1, Event.readCol col lowRows keyIdx (readLevel d lowRows col) :: tr, ?_, hlt, ?_, ?_⟩
    · show scanCols d lowRows (col :: rest) keyIdx keymap = _
      rw [scanCols]
      rw [if_pos hcol]
      simp only [← hb, heq]
      have harith : keyIdx + 1 + rest.length = keyIdx + (col :: rest).length := by
        simp [List.length_cons]; omega
      rw [harith]
    · intro j hj
      cases j with
      | zero =>
        have hout : keymap1.testBit (keyIdx + 0) = (write_bit keymap keyIdx b).testBit (keyIdx + 0) := by
          refine hfix (keyIdx + 0) (Or.inl ?_)
          omega
        rw [hout]
        rw [testBit_write_bit b hn hm]
        simp
      | succ j' =>
        have hj' : j' < rest.length := by simp [List.length_cons] at hj; omega
        have : keyIdx + (j' + 1) = (keyIdx + 1) + j' := by omega
        rw [this]
        rw [hbits j' hj']
        congr 1
    · intro k hk
      have h1 : keymap1.testBit k = (write_bit keymap keyIdx b).testBit k := by
        refine hfix k ?_
        rcases hk with h | h
        · exact Or.inl (by omega)
        · exact Or.inr (by simp [List.length_cons] at h; omega)
      rw [h1, testBit_write_bit b hn hm]
      have : ¬ keyIdx = k := by
        rcases hk with h | h
        · omega
        · simp [List.length_cons] at h; omega
      rw [if_neg this]



lemma readLevel_single (d : Driver) (row col : Nat) :
    (readLevel d [row] col == Level.Low) = d.pressed row col := by
  unfold readLevel
  cases h : d.pressed row col <;> simp [h]

lemma scanRows_ok (d : Driver) :
    ∀ (rows : List Nat) (keyIdx keymap : Nat),
    (∀ r ∈ rows, d.getOk r = true) →
    (∀ c ∈ COLS, d.getOk c = true) →
    keyIdx + rows.length * COLS.length ≤ 32 →
    keymap < 2 ^ 32 →
    ∃ keymap1 tr,
      scanRows d rows keyIdx keymap [] = (Except.ok keymap1, [], tr) ∧
      keymap1 < 2 ^ 32 ∧
      (∀ i (hi2 : i < rows.length) j (hj : j < COLS.length),
        keymap1.testBit (keyIdx + (i * COLS.length + j)) =
          d.pressed (rows.get ⟨i, hi2⟩) (COLS.get ⟨j, hj⟩)) ∧
      (∀ k, k < keyIdx ∨ keyIdx + rows.length * COLS.length ≤ k →
        keymap1.testBit k = keymap.testBit k)
  | [], keyIdx, keymap, _, _, _, hm =>
    ⟨keymap, [], by simp [scanRows], hm, fun i hi2 => absurd hi2 (by simp), fun k _ => rfl⟩
  | row :: rest, keyIdx, keymap, hrok, hcok, hi, hm => by
    have hrow : d.getOk row = true := hrok row (List.mem_cons_self row rest)
    have hlen : (row :: rest).length * COLS.length
        = COLS.length + rest.length * COLS.length := by
      rw [List.length_cons, Nat.succ_mul]; omega
    rw [hlen] at hi
    obtain ⟨keymapC, trC, heqC, hltC, hbitsC, hfixC⟩ :=
      scanCols_ok d [row] COLS keyIdx keymap hcok (by omega) hm
    obtain ⟨keymap1, trR, heqR, hltR, hbitsR, hfixR⟩ :=
      scanRows_ok d rest (keyIdx + COLS.length) keymapC
        (fun r hr => hrok r (List.mem_cons_of_mem row hr)) hcok (by omega) hltC
    refine ⟨keymap1,
      Event.setLow row :: Event.sleepSettle :: (trC ++ Event.setHigh row :: trR),
      ?_, hltR, ?_, ?_⟩
    · rw [scanRows, if_pos hrow]
      simp only [List.nil_append]
      rw [heqC]
      simp only [List.erase_cons_head]
      rw [heqR]
    · intro i hi2 j hj
      cases i with
      | zero =>
        have e0 : keyIdx + (0 * COLS.length + j) = keyIdx + j := by omega
        rw [e0]
        have h1 : keymap1.testBit (keyIdx + j) = keymapC.testBit (keyIdx + j) :=
          hfixR (keyIdx + j) (Or.inl (by omega))
        rw [h1, hbitsC j hj]
        have hget : (row :: rest).get ⟨0, hi2⟩ = row := rfl
        rw [hget]
        exact readLevel_single d row (COLS.get ⟨j, hj⟩)
      | succ i' =>
        have hi' : i' < rest.length := by
          rw [List.length_cons] at hi2; omega
        have hmul : (i' + 1) * COLS.length = i' * COLS.length + COLS.length :=
          Nat.succ_mul i' COLS.length
        have e1 : keyIdx + ((i' + 1) * COLS.length + j)
            = (keyIdx + COLS.length) + (i' * COLS.length + j) := by omega
        rw [e1, hbitsR i' hi' j hj]
        have hget : (row :: rest).get ⟨i' + 1, hi2⟩ = rest.get ⟨i', hi'⟩ := rfl
        rw [hget]
    · intro k hk
      rw [List.length_cons, Nat.succ_mul] at hk
      have h1 : keymap1.testBit k = keymapC.testBit k := by
        refine hfixR k ?_
        rcases hk with h | h
        · exact Or.inl (by omega)
        · exact Or.inr (by omega)
      have h2 : keymapC.testBit k = keymap.testBit k := by
        refine hfixC k ?_
        rcases hk with h | h
        · exact Or.inl h
        · exact Or.inr (by omega)
      rw [h1, h2]



/-- C2: for every 32-bit value `bits` and every index `n ≥ 32`, `get_bit_at`
reads false, `set_bit_at` and `clear_bit_at` return `bits` unchanged, and
`get_bit_at (set_bit_at bits n) n = false`: out-of-range indices are safe
no-ops. -/
theorem C2_out_of_range_noop (bits n : Nat) (_hb : bits < 2 ^ 32) (hn : 32 ≤ n) :
    get_bit_at bits n = false ∧ set_bit_at bits n = bits ∧ clear_bit_at bits n = bits ∧
    get_bit_at (set_bit_at bits n) n = false := by
  have h : ¬ n < 32 := by omega
  refine ⟨?_, ?_, ?_, ?_⟩ <;> simp [get_bit_at, set_bit_at, clear_bit_at, h]

/-- Witness for C2 at `bits = 5`, `n = 40`. -/
theorem C2_out_of_range_noop_witness :
    get_bit_at 5 40 = false ∧ set_bit_at 5 40 = 5 ∧ clear_bit_at 5 40 = 5 ∧
    get_bit_at (set_bit_at 5 40) 40 = false :=
  C2_out_of_range_noop 5 40 (by norm_num) (by norm_num)

/-- C10: the three bit primitives are total for every u8 index `n`: the
`n < 32` guard means the u32 shift `1 << n` is only executed with an
in-width shift amount, so the shift-checked versions never signal an
overflow panic and agree with the unchecked functions. -/
theorem C10_no_shift_overflow (input n : Nat) (_hi : input < 2 ^ 32) (_hn : n < 256) :
    get_bit_at_checked input n = some (get_bit_at input n) ∧
    set_bit_at_checked input n = some (set_bit_at input n) ∧
    clear_bit_at_checked input n = some (clear_bit_at input n) := by
  by_cases h : n < 32
  · have hmod : (1 <<< n) % 4294967296 = 1 <<< n := by
      apply Nat.mod_eq_of_lt
      rw [Nat.one_shiftLeft]
      exact lt_of_lt_of_eq (Nat.pow_lt_pow_right (by norm_num) h) (by norm_num)
    refine ⟨?_, ?_, ?_⟩ <;>
      simp [get_bit_at_checked, set_bit_at_checked, clear_bit_at_checked,
        shl_u32, get_bit_at, set_bit_at, clear_bit_at, h, hmod]
  · refine ⟨?_, ?_, ?_⟩ <;>
      simp [get_bit_at_checked, set_bit_at_checked, clear_bit_at_checked,
        shl_u32, get_bit_at, set_bit_at, clear_bit_at, h]

/-- Witness for C10 at `input = 5`, `n = 7`. -/
theorem C10_no_shift_overflow_witness :
    get_bit_at_checked 5 7 = some (get_bit_at 5 7) ∧
    set_bit_at_checked 5 7 = some (set_bit_at 5 7) ∧
    clear_bit_at_checked 5 7 = some (clear_bit_at 5 7) :=
  C10_no_shift_overflow 5 7 (by norm_num) (by norm_num)

/-- C4 counterexample: with only the key at row 2, column 1 pressed (pins 16
and 26, `N_c = 3`) `scan` returns the bitmask `128 = 2 ^ 7 = 0b10000000`,
not `0b1000000 = 0x40 = 64` as the claim words it: the claim's numeric
rendering of "bit 7" is off by one bit position. -/
theorem C4_not_0x40 :
    (scan (singleKey 16 26) []).1 = Except.ok 128 ∧
    (Except.ok 128 : Except Unit Nat) ≠ Except.ok 64 :=
  ⟨rfl, by simp⟩

/-- C4 as amended: with only the key at row 2, column 1 pressed, `scan`
returns exactly bit `2*3+1 = 7` set, i.e. `0b10000000` (`0x80`), and all
other bits clear. -/
theorem C4_single_key_bit7 :
    (scan (singleKey 16 26) []).1 = Except.ok (2 ^ 7) ∧
    (∀ k : Nat, (2 ^ 7 : Nat).testBit k = decide (7 = k)) :=
  ⟨rfl, fun _ => Nat.testBit_two_pow⟩



/-- C1: for every simulated driver state (every pressed-key matrix, all GPIO
calls succeeding), `scan` returns `Ok` of a bitmask in which, for every row
index `r < 8` and column index `c < 3`, bit `r * N_c + c` is set exactly when
the column pin reads the active (low) level while that row is driven low,
equivalently exactly when the key joining the two pins is pressed; with no
key pressed the returned bitmask is 0. -/
theorem C1_scan_bitmask (d : Driver)
    (hnew : d.gpioNewOk = true)
    (hrok : ∀ r ∈ ROWS, d.getOk r = true)
    (hcok : ∀ c ∈ COLS, d.getOk c = true) :
    ∃ m, (scan d []).1 = Except.ok m ∧
      (∀ r (hr : r < ROWS.length) (c : Nat) (hc : c < COLS.length),
        m.testBit (key_idx_of r c) =
          (readLevel d [ROWS.get ⟨r, hr⟩] (COLS.get ⟨c, hc⟩) == Level.Low) ∧
        m.testBit (key_idx_of r c) =
          d.pressed (ROWS.get ⟨r, hr⟩) (COLS.get ⟨c, hc⟩)) ∧
      ((∀ p q, d.pressed p q = false) → m = 0) := by
  obtain ⟨m, tr, heq, _hlt, hbits, hfix⟩ :=
    scanRows_ok d ROWS 0 0 hrok hcok (by decide) (Nat.two_pow_pos 32)
  refine ⟨m, ?_, ?_, ?_⟩
  · rw [scan, if_pos hnew, heq]
  · intro r hr c hc
    have hb := hbits r hr c hc
    have harith : 0 + (r * COLS.length + c) = key_idx_of r c := by
      simp [key_idx_of]
    rw [harith] at hb
    refine ⟨?_, hb⟩
    rw [hb, readLevel_single]
  · intro hall
    refine Nat.eq_of_testBit_eq fun k => ?_
    rw [Nat.zero_testBit]
    have hC : COLS.length = 3 := rfl
    have hR : ROWS.length = 8 := rfl
    by_cases hk : k < 24
    · have hi2 : k / 3 < ROWS.length := by rw [hR]; omega
      have hj : k % 3 < COLS.length := by rw [hC]; omega
      have hb := hbits (k / 3) hi2 (k % 3) hj
      have harith : 0 + (k / 3 * COLS.length + k % 3) = k := by rw [hC]; omega
      rw [harith] at hb
      rw [hb, hall]
    · have hfx := hfix k (Or.inr (by rw [hC, hR]; omega))
      rw [hfx, Nat.zero_testBit]

/-- Witness for C1: with the all-released driver the returned bitmask is 0. -/
theorem C1_scan_bitmask_witness : (scan allReleased []).1 = Except.ok 0 := by
  obtain ⟨m, hm, _, hz⟩ := C1_scan_bitmask allReleased rfl (by decide) (by decide)
  rw [hm, hz fun p q => rfl]

/-- C6: `scan` retains no state between invocations: a successful scan
returns the driver with no row left driven low (the state it started from),
so running `scan` again on the resulting state returns the identical
result - the result is a function of the driver state alone. -/
theorem C6_scan_stateless (d : Driver)
    (hnew : d.gpioNewOk = true)
    (hrok : ∀ r ∈ ROWS, d.getOk r = true)
    (hcok : ∀ c ∈ COLS, d.getOk c = true) :
    (scan d []).2.1 = [] ∧
    scan d ((scan d []).2.1) = scan d [] := by
  obtain ⟨m, tr, heq, _, _, _⟩ :=
    scanRows_ok d ROWS 0 0 hrok hcok (by decide) (Nat.two_pow_pos 32)
  have hstate : (scan d []).2.1 = [] := by
    rw [scan, if_pos hnew, heq]
  exact ⟨hstate, by rw [hstate]⟩

/-- Witness for C6 with the all-released driver. -/
theorem C6_scan_stateless_witness :
    (scan allReleased []).2.1 = [] ∧
    scan allReleased ((scan allReleased []).2.1) = scan allReleased [] :=
  C6_scan_stateless allReleased rfl (by decide) (by decide)

/-- C5: the key-index assignment used by `scan` is `r * N_c + c`, a
row-major bijection from in-range `(row, col)` pairs onto `[0, N_r * N_c)`:
it maps `(0,0)` to 0, `(0,1)` to 1, `(1,0)` to `N_c`, stays below
`N_r * N_c`, is injective, is surjective onto `[0, N_r * N_c)`, and scanning
with exactly the key at `(r, c)` pressed returns exactly bit
`key_idx_of r c` set. -/
theorem C5_key_index_bijection :
    (∀ r c, key_idx_of r c = r * COLS.length + c) ∧
    (key_idx_of 0 0 = 0 ∧ key_idx_of 0 1 = 1 ∧ key_idx_of 1 0 = COLS.length) ∧
    (∀ r c, r < ROWS.length → c < COLS.length →
      key_idx_of r c < ROWS.length * COLS.length) ∧
    (∀ r1 c1 r2 c2, r1 < ROWS.length → c1 < COLS.length →
      r2 < ROWS.length → c2 < COLS.length →
      key_idx_of r1 c1 = key_idx_of r2 c2 → r1 = r2 ∧ c1 = c2) ∧
    (∀ n, n < ROWS.length * COLS.length →
      ∃ r c, r < ROWS.length ∧ c < COLS.length ∧ key_idx_of r c = n) ∧
    (∀ r (hr : r < ROWS.length) (c : Nat) (hc : c < COLS.length),
      (scan (singleKey (ROWS.get ⟨r, hr⟩) (COLS.get ⟨c, hc⟩)) []).1 =
        Except.ok (2 ^ key_idx_of r c)) := by
  have hC : COLS.length = 3 := rfl
  have hR : ROWS.length = 8 := rfl
  refine ⟨fun r c => rfl, ⟨rfl, rfl, rfl⟩, ?_, ?_, ?_, ?_⟩
  · intro r c h1 h2
    simp only [key_idx_of, hC, hR] at *
    omega
  · intro r1 c1 r2 c2 h1 h2 h3 h4 h5
    simp only [key_idx_of, hC, hR] at *
    omega
  · intro n hn
    rw [hR, hC] at hn
    refine ⟨n / 3, n % 3, by omega, by omega, ?_⟩
    simp only [key_idx_of, hC]
    omega
  · decide



lemma scanCols_readCol_mem (d : Driver) (lowRows : List Nat) :
    ∀ (cols : List Nat) (keyIdx keymap pin ki : Nat) (lr : List Nat) (lvl : Level),
    Event.readCol pin lr ki lvl ∈ (scanCols d lowRows cols keyIdx keymap).2 →
    lr = lowRows ∧ keyIdx ≤ ki ∧ ki < keyIdx + cols.length
  | [], keyIdx, keymap, pin, ki, lr, lvl, h => absurd h (by simp [scanCols])
  | col :: rest, keyIdx, keymap, pin, ki, lr, lvl, h => by
    rw [scanCols] at h
    by_cases hc : d.getOk col = true
    · rw [if_pos hc] at h
      simp only [List.mem_cons] at h
      rcases h with h | h
      · have h1 : lr = lowRows ∧ ki = keyIdx := by
          cases h
          exact ⟨rfl, rfl⟩
        refine ⟨h1.1, ?_, ?_⟩ <;> simp [h1.2, List.length_cons]
      · obtain ⟨ha, hb, hcb⟩ :=
          scanCols_readCol_mem d lowRows rest (keyIdx + 1) _ pin ki lr lvl h
        refine ⟨ha, by omega, ?_⟩
        rw [List.length_cons]
        omega
    · rw [if_neg hc] at h
      simp at h

lemma scanCols_ok_keyIdx (d : Driver) (lowRows : List Nat) :
    ∀ (cols : List Nat) (keyIdx keymap km ki1 : Nat) (tr : List Event),
    scanCols d lowRows cols keyIdx keymap = (Except.ok (km, ki1), tr) →
    ki1 = keyIdx + cols.length
  | [], keyIdx, keymap, km, ki1, tr, h => by
    rw [scanCols] at h
    simp only [Prod.mk.injEq, Except.ok.injEq] at h
    rw [List.length_nil]
    omega
  | col :: rest, keyIdx, keymap, km, ki1, tr, h => by
    rw [scanCols] at h
    by_cases hc : d.getOk col = true
    · rw [if_pos hc] at h
      have h1 : (scanCols d lowRows rest (keyIdx + 1)
          (write_bit keymap keyIdx (readLevel d lowRows col == Level.Low))).1 =
          Except.ok (km, ki1) := by
        have := congrArg Prod.fst h
        simpa using this
      rcases hsc : scanCols d lowRows rest (keyIdx + 1)
          (write_bit keymap keyIdx (readLevel d lowRows col == Level.Low)) with ⟨res, tr2⟩
      rw [hsc] at h1
      simp at h1
      have := scanCols_ok_keyIdx d lowRows rest (keyIdx + 1) _ km ki1 tr2 (by rw [hsc, h1])
      rw [List.length_cons]
      omega
    · rw [if_neg hc] at h
      simp at h


lemma scanRows_readCol_mem (d : Driver) :
    ∀ (rows : List Nat) (keyIdx keymap pin ki : Nat) (lr : List Nat) (lvl : Level),
    Event.readCol pin lr ki lvl ∈ (scanRows d rows keyIdx keymap []).2.2 →
    lr.length = 1 ∧ keyIdx ≤ ki ∧ ki < keyIdx + rows.length * COLS.length
  | [], keyIdx, keymap, pin, ki, lr, lvl, h => absurd h (by simp [scanRows])
  | row :: rest, keyIdx, keymap, pin, ki, lr, lvl, h => by
    have hmul : (rest.length + 1) * COLS.length
        = rest.length * COLS.length + COLS.length := Nat.succ_mul rest.length COLS.length
    rw [scanRows] at h
    by_cases hr : d.getOk row = true
    · rw [if_pos hr] at h
      simp only [List.nil_append] at h
      rcases hsc : scanCols d [row] COLS keyIdx keymap with ⟨res, trC⟩
      rw [hsc] at h
      cases res with
      | ok p =>
        rcases p with ⟨keymap1, keyIdx1⟩
        have hki1 : keyIdx1 = keyIdx + COLS.length :=
          scanCols_ok_keyIdx d [row] COLS keyIdx keymap keymap1 keyIdx1 trC hsc
        simp only [List.erase_cons_head, List.mem_cons, List.mem_append] at h
        rcases h with h | h | h | h
        · exact Event.noConfusion h
        · exact Event.noConfusion h
        · obtain ⟨ha, hb, hcb⟩ :=
            scanCols_readCol_mem d [row] COLS keyIdx keymap pin ki lr lvl
              (by rw [hsc]; exact h)
          refine ⟨by rw [ha]; rfl, hb, ?_⟩
          rw [List.length_cons]
          omega
        · rcases h with h | h
          · exact Event.noConfusion h
          · obtain ⟨ha, hb, hcb⟩ :=
              scanRows_readCol_mem d rest keyIdx1 keymap1 pin ki lr lvl h
            rw [hki1] at hb hcb
            refine ⟨ha, by omega, ?_⟩
            rw [List.length_cons]
            omega
      | error e =>
        simp only [List.mem_cons] at h
        rcases h with h | h | h
        · exact Event.noConfusion h
        · exact Event.noConfusion h
        · obtain ⟨ha, hb, hcb⟩ :=
            scanCols_readCol_mem d [row] COLS keyIdx keymap pin ki lr lvl
              (by rw [hsc]; exact h)
          refine ⟨by rw [ha]; rfl, hb, ?_⟩
          rw [List.length_cons]
          omega
    · rw [if_neg hr] at h
      simp at h


/-- C3: at every point at which `scan` samples a column level, exactly one
row line is driven to the active (low) level: every `readCol` event in the
trace of any execution of `scan` (any driver state, errors included) records
a one-element set of low rows. -/
theorem C3_one_active_row_per_sample (d : Driver) (pin ki : Nat) (lr : List Nat) (lvl : Level)
    (hmem : Event.readCol pin lr ki lvl ∈ (scan d []).2.2) :
    lr.length = 1 := by
  rw [scan] at hmem
  by_cases hnew : d.gpioNewOk = true
  · rw [if_pos hnew] at hmem
    exact (scanRows_readCol_mem d ROWS 0 0 pin ki lr lvl hmem).1
  · rw [if_neg hnew] at hmem
    simp at hmem

/-- Witness for C3: the first sample of the all-released scan happens with
exactly row pin 13 low. -/
theorem C3_one_active_row_per_sample_witness : ([13] : List Nat).length = 1 :=
  C3_one_active_row_per_sample allReleased 25 0 [13] Level.High (by decide)

/-- C8: every `key_idx` that `scan` hands to the bit primitives is below
`N_r * N_c = 24` (so the `n ≥ 32` branch of the primitives is unreachable
from `scan`), and every bitmask a successful scan returns has all bits from
24 upward clear, i.e. is below `2 ^ 24`. -/
theorem C8_key_idx_below_24 :
    (∀ (d : Driver) (pin ki : Nat) (lr : List Nat) (lvl : Level),
      Event.readCol pin lr ki lvl ∈ (scan d []).2.2 → ki < 24 ∧ ki < 32) ∧
    ROWS.length * COLS.length = 24 ∧
    (∀ d : Driver, d.gpioNewOk = true → (∀ r ∈ ROWS, d.getOk r = true) →
      (∀ c ∈ COLS, d.getOk c = true) →
      ∃ m, (scan d []).1 = Except.ok m ∧ m < 2 ^ 24 ∧
        ∀ k, 24 ≤ k → m.testBit k = false) := by
  refine ⟨?_, rfl, ?_⟩
  · intro d pin ki lr lvl hmem
    rw [scan] at hmem
    by_cases hnew : d.gpioNewOk = true
    · rw [if_pos hnew] at hmem
      have h := (scanRows_readCol_mem d ROWS 0 0 pin ki lr lvl hmem).2.2
      have hlen : ROWS.length * COLS.length = 24 := rfl
      omega
    · rw [if_neg hnew] at hmem
      simp at hmem
  · intro d hnew hrok hcok
    obtain ⟨m, tr, heq, _hlt, _hbits, hfix⟩ :=
      scanRows_ok d ROWS 0 0 hrok hcok (by decide) (Nat.two_pow_pos 32)
    have hhigh : ∀ k, 24 ≤ k → m.testBit k = false := by
      intro k hk
      have hlen : ROWS.length * COLS.length = 24 := rfl
      have := hfix k (Or.inr (by omega))
      rw [this, Nat.zero_testBit]
    refine ⟨m, ?_, ?_, hhigh⟩
    · rw [scan, if_pos hnew, heq]
    · exact Nat.lt_pow_two_of_testBit m fun i hi => hhigh i hi


lemma initCols_eq (d : Driver) : ∀ (cols : List Nat),
    initCols d cols =
      (if cols.all d.getOk then Except.ok () else Except.error (),
       (cols.takeWhile d.getOk).flatMap
         (fun c => [InitEvent.inputPullup c, InitEvent.noReset c]))
  | [] => by simp [initCols]
  | col :: rest => by
    rw [initCols]
    by_cases hc : d.getOk col = true
    · rw [if_pos hc, initCols_eq d rest]
      simp [List.all_cons, hc, List.takeWhile_cons]
    · have hc' : d.getOk col = false := by
        cases h : d.getOk col
        · rfl
        · exact absurd h hc
      rw [if_neg hc]
      simp [List.all_cons, hc', List.takeWhile_cons]

lemma initRows_eq (d : Driver) : ∀ (rows : List Nat),
    initRows d rows =
      (if rows.all d.getOk then Except.ok () else Except.error (),
       (rows.takeWhile d.getOk).flatMap
         (fun r => [InitEvent.output r, InitEvent.setHigh r, InitEvent.noReset r]))
  | [] => by simp [initRows]
  | row :: rest => by
    rw [initRows]
    by_cases hr : d.getOk row = true
    · rw [if_pos hr, initRows_eq d rest]
      simp [List.all_cons, hr, List.takeWhile_cons]
    · have hr' : d.getOk row = false := by
        cases h : d.getOk row
        · rfl
        · exact absurd h hr
      rw [if_neg hr]
      simp [List.all_cons, hr', List.takeWhile_cons]


/-- C7: `init_io` configures every column line as a pull-up input (bias
toward the inactive high level) and every row line as an output driven high
immediately, in order; if any line cannot be acquired it returns the error
at once: the trace stops at the first failing line (columns first, and no
row is touched if a column failed), so no later line is configured. -/
theorem C7_initialize (d : Driver) (hnew : d.gpioNewOk = true) :
    ((COLS ++ ROWS).all d.getOk = true →
      init_io d = (Except.ok (),
        COLS.flatMap (fun c => [InitEvent.inputPullup c, InitEvent.noReset c]) ++
        ROWS.flatMap
          (fun r => [InitEvent.output r, InitEvent.setHigh r, InitEvent.noReset r]))) ∧
    ((COLS ++ ROWS).all d.getOk = false → (init_io d).1 = Except.error ()) ∧
    (init_io d).2 =
      (COLS.takeWhile d.getOk).flatMap
        (fun c => [InitEvent.inputPullup c, InitEvent.noReset c]) ++
      (if COLS.all d.getOk then
        (ROWS.takeWhile d.getOk).flatMap
          (fun r => [InitEvent.output r, InitEvent.setHigh r, InitEvent.noReset r])
       else []) := by
  have hall : (COLS ++ ROWS).all d.getOk = (COLS.all d.getOk && ROWS.all d.getOk) :=
    List.all_append
  refine ⟨?_, ?_, ?_⟩
  · intro h
    rw [hall] at h
    have hc : COLS.all d.getOk = true := by
      cases hx : COLS.all d.getOk
      · rw [hx] at h; simp at h
      · rfl
    have hr : ROWS.all d.getOk = true := by
      cases hx : ROWS.all d.getOk
      · rw [hx] at h; simp at h
      · rfl
    rw [init_io, if_pos hnew, initCols_eq, initRows_eq, hc, hr]
    simp only [if_true]
    rw [List.takeWhile_eq_self_iff.mpr (by simpa using hc),
      List.takeWhile_eq_self_iff.mpr (by simpa using hr)]
  · intro h
    rw [hall] at h
    rw [init_io, if_pos hnew, initCols_eq, initRows_eq]
    cases hc : COLS.all d.getOk
    · simp [hc]
    · cases hr : ROWS.all d.getOk
      · simp [hc, hr]
      · rw [hc, hr] at h; simp at h
  · rw [init_io, if_pos hnew, initCols_eq, initRows_eq]
    cases hc : COLS.all d.getOk
    · simp [hc]
    · cases hr : ROWS.all d.getOk <;> simp [hc, hr]



/-- Witness for C7: with line 26 unavailable, `init_io` errors and has
configured only line 25 (the lines before the first failure). -/
theorem C7_initialize_witness :
    (init_io badLine26).1 = Except.error () ∧
    (init_io badLine26).2 = [InitEvent.inputPullup 25, InitEvent.noReset 25] := by
  obtain ⟨_h1, h2, h3⟩ := C7_initialize badLine26 rfl
  refine ⟨h2 (by decide), ?_⟩
  rw [h3]
  decide

/-- C9: if a column pin cannot be acquired after a row has been driven low
(row pin 13 acquired and driven, column pin 25 failing), `scan` returns the
error at once: the trace ends after the set-low and settle-sleep events (no
further pin operation, in particular no set-high), and the row is left
driven low, so the driver state on error differs from the pre-call state. -/
theorem C9_error_midscan (d : Driver)
    (hnew : d.gpioNewOk = true) (h13 : d.getOk 13 = true) (h25 : d.getOk 25 = false) :
    scan d [] = (Except.error (), [13], [Event.setLow 13, Event.sleepSettle]) ∧
    (scan d []).2.1 ≠ [] := by
  have h25' : ¬ d.getOk 25 = true := by rw [h25]; simp
  have hscan : scan d [] = (Except.error (), [13], [Event.setLow 13, Event.sleepSettle]) := by
    rw [scan, if_pos hnew]
    show scanRows d (13 :: [12, 16, 17, 20, 22, 23, 24]) 0 0 [] = _
    rw [scanRows, if_pos h13]
    simp only [List.nil_append]
    have hC : scanCols d [13] COLS 0 0 = (Except.error (), []) := by
      show scanCols d [13] (25 :: [26, 27]) 0 0 = _
      rw [scanCols, if_neg h25']
    rw [hC]
  refine ⟨hscan, ?_⟩
  rw [hscan]
  simp

/-- Witness for C9 with the concrete failing driver. -/
theorem C9_error_midscan_witness :
    scan badLine25 [] = (Except.error (), [13], [Event.setLow 13, Event.sleepSettle]) ∧
    (scan badLine25 []).2.1 ≠ [] :=
  C9_error_midscan badLine25 rfl rfl rfl

end Keyscan
